import Mathlib

/-!
Verification of the geometric visibility engine in src/raycast.py.

The engine is embedded shallowly over exact rational arithmetic: the Python
floats become `ℚ`, `arcade.Vec2` becomes the `Vec2` structure below, a wall
(`Boundry`) is a pair of endpoints, a `Ray` an origin plus direction, and a
`Particle` the observer position, its ray fan and the stored hit sequence
`ray_lines`.  Every definition follows the corresponding Python function
line by line; `None` results become `Option.none`.
-/

set_option autoImplicit false

/-- Window width constant from raycast.py. -/
def WINDOW_WIDTH : ℚ := 1024

/-- Window height constant from raycast.py. -/
def WINDOW_HEIGHT : ℚ := 720

/-- A 2D point / vector, modelling arcade.Vec2 with exact rational
coordinates. -/
structure Vec2 where
  x : ℚ
  y : ℚ
deriving DecidableEq, Repr

/-- A wall: the Boundry class of raycast.py, holding the two endpoints
a and b. -/
structure Boundry where
  a : Vec2
  b : Vec2
deriving DecidableEq, Repr

/-- A ray: origin pos and direction dir, as in the Ray class.  The
constructor of the Python class builds dir from a polar angle; claims about
casting quantify over arbitrary directions, so dir is kept as a plain
vector here. -/
structure Ray where
  pos : Vec2
  dir : Vec2
deriving DecidableEq, Repr

/-- The determinant d computed in Ray.cast:
d = (x1-x2)*(y3-y4) - (y1-y2)*(x3-x4), where (x1,y1)-(x2,y2) is the wall
and (x3,y3), (x4,y4) = pos, pos+dir are two points on the ray. -/
def castDet (r : Ray) (b : Boundry) : ℚ :=
  (b.a.x - b.b.x) * (r.pos.y - (r.pos.y + r.dir.y))
    - (b.a.y - b.b.y) * (r.pos.x - (r.pos.x + r.dir.x))

/-- The segment parameter t computed in Ray.cast:
t = ((x1-x3)*(y3-y4) - (y1-y3)*(x3-x4)) / d. -/
def castT (r : Ray) (b : Boundry) : ℚ :=
  ((b.a.x - r.pos.x) * (r.pos.y - (r.pos.y + r.dir.y))
    - (b.a.y - r.pos.y) * (r.pos.x - (r.pos.x + r.dir.x))) / castDet r b

/-- The ray parameter u computed in Ray.cast:
u = -(((x1-x2)*(y1-y3) - (y1-y2)*(x1-x3)) / d). -/
def castU (r : Ray) (b : Boundry) : ℚ :=
  -(((b.a.x - b.b.x) * (b.a.y - r.pos.y)
    - (b.a.y - b.b.y) * (b.a.x - r.pos.x)) / castDet r b)

/-- Ray.cast: returns the intersection point of the ray with the wall, or
none.  Mirrors the source: if d == 0 return None; otherwise accept when
t > 0 and t <= 1 and u > 0, returning (x1 + t*(x2-x1), y1 + t*(y2-y1)). -/
def Ray.cast (r : Ray) (b : Boundry) : Option Vec2 :=
  if castDet r b = 0 then
    none
  else if 0 < castT r b ∧ castT r b ≤ 1 ∧ 0 < castU r b then
    some ⟨b.a.x + castT r b * (b.b.x - b.a.x),
          b.a.y + castT r b * (b.b.y - b.a.y)⟩
  else
    none

/-- Ray.move_to: sets pos = p, direction untouched. -/
def Ray.move_to (r : Ray) (p : Vec2) : Ray :=
  { r with pos := p }

/-- Squared Euclidean distance.  The source computes
self.pos.distance(pt), the Euclidean distance; all the source does with it
is compare (strict less-than against the running record), and comparisons
of nonnegative reals are preserved and reflected by squaring, so the loop
below compares squared distances.  The bridge lemmas sqrt_dist2_lt_iff and
sqrt_dist2_eq_iff relate the two. -/
def dist2 (p q : Vec2) : ℚ :=
  (p.x - q.x) ^ 2 + (p.y - q.y) ^ 2

/-- The Particle class: observer position, ray fan, and stored hit
sequence ray_lines. -/
structure Particle where
  pos : Vec2
  rays : List Ray
  ray_lines : List Vec2
deriving DecidableEq, Repr

/-- The inner wall loop of Particle.look for a single ray: record is the
best (squared) distance so far (none plays the role of the initial inf)
and closest the best point so far; a new hit replaces them exactly when
its distance is strictly smaller. -/
def castLoop (pos : Vec2) (r : Ray) :
    List Boundry → Option ℚ → Option Vec2 → Option Vec2
  | [], _, closest => closest
  | b :: bs, record, closest =>
    match r.cast b with
    | none => castLoop pos r bs record closest
    | some pt =>
      let dist := dist2 pos pt
      match record with
      | none => castLoop pos r bs (some dist) (some pt)
      | some rc =>
        if dist < rc then castLoop pos r bs (some dist) (some pt)
        else castLoop pos r bs record closest

/-- The closest hit of one ray against a wall list: the inner loop of
Particle.look started with record = inf and closest = None. -/
def closestHit (pos : Vec2) (r : Ray) (bs : List Boundry) : Option Vec2 :=
  castLoop pos r bs none none

/-- The outer ray loop of Particle.look: for each ray compute its closest
hit and append it to the result only when it exists (the source guards the
append with `if closest:`). -/
def lookLines (pos : Vec2) (rays : List Ray) (bs : List Boundry) : List Vec2 :=
  match rays with
  | [] => []
  | r :: rest =>
    match closestHit pos r bs with
    | some pt => pt :: lookLines pos rest bs
    | none => lookLines pos rest bs

/-- Particle.look: clears ray_lines and refills it from the ray fan.  The
method writes only self.ray_lines; pos and rays are read, never assigned,
and the wall list is only read, so the embedding returns a particle with
just the ray_lines field replaced. -/
def Particle.look (par : Particle) (bs : List Boundry) : Particle :=
  { par with ray_lines := lookLines par.pos par.rays bs }

/-- Particle.move_to: sets self.pos = pos and calls ray.move_to(self.pos)
on every ray of the fan; ray_lines untouched. -/
def Particle.move_to (par : Particle) (p : Vec2) : Particle :=
  { par with pos := p, rays := par.rays.map (fun r => r.move_to p) }

/-- numpy.arange(start, stop, step) for step > 0, in exact arithmetic:
the documented numpy semantics is ceil((stop-start)/step) values
start + i*step.  Used by Particle.init, which is not itself under test
for floating-point rounding. -/
def arange (start stop step : ℚ) : List ℚ :=
  (List.range ⌈(stop - start) / step⌉₊).map (fun (i : ℕ) => start + (i : ℚ) * step)

/-- The initial observer position of Particle.init:
(WINDOW_WIDTH/2, WINDOW_HEIGHT/2). -/
def particleInitPos : Vec2 :=
  ⟨WINDOW_WIDTH / 2, WINDOW_HEIGHT / 2⟩

/-- The ray fan built by Particle.init: one ray per angle a in
np.arange(0, 360, deg_between_rays), each constructed as
Ray(self.pos, radians(a)).  Since from_polar produces transcendental
coordinates, each ray is tracked by its origin and its defining angle in
degrees. -/
def particleInitRays (deg : ℚ) : List (Vec2 × ℚ) :=
  (arange 0 360 deg).map (fun a => (particleInitPos, a))

/-- The fan properties claimed for Particle.init: ray count is
ceil(360/deg); the angles are 0, deg, 2*deg, ...; every angle is strictly
below 360; the angles are strictly increasing; every ray's origin is the
initial observer position. -/
def fanSpec (deg : ℚ) : Prop :=
  (particleInitRays deg).length = ⌈(360 : ℚ) / deg⌉₊ ∧
  (particleInitRays deg).map Prod.snd
      = (List.range ⌈(360 : ℚ) / deg⌉₊).map (fun (i : ℕ) => (i : ℚ) * deg) ∧
  (∀ p ∈ particleInitRays deg, p.2 < 360) ∧
  ((particleInitRays deg).map Prod.snd).Pairwise (· < ·) ∧
  (∀ p ∈ particleInitRays deg, p.1 = particleInitPos)

/-- The acceptance behaviour of Ray.cast at a non-degenerate ray/wall
pair: a point is returned exactly when 0 < t <= 1 and u > 0; the returned
point is a + t*(b-a); when t = 1 (and the wall is in front, u > 0) the
returned point is the endpoint b; when t = 0 nothing is returned. -/
def castSpecAt (r : Ray) (b : Boundry) : Prop :=
  ((r.cast b).isSome ↔ 0 < castT r b ∧ castT r b ≤ 1 ∧ 0 < castU r b) ∧
  (∀ p, r.cast b = some p →
    p = Vec2.mk (b.a.x + castT r b * (b.b.x - b.a.x))
        (b.a.y + castT r b * (b.b.y - b.a.y))) ∧
  (castT r b = 1 → 0 < castU r b → r.cast b = some b.b) ∧
  (castT r b = 0 → r.cast b = none)

/-- C3: whenever the line-line determinant d is exactly zero (parallel or
coincident lines, including overlapping coincident segments), Ray.cast
returns none rather than an error. -/
theorem cast_parallel_none (r : Ray) (b : Boundry) (hd : castDet r b = 0) :
    r.cast b = none := by
  simp [Ray.cast, hd]

/-- Witness for cast_parallel_none: a horizontal ray against a distinct
horizontal wall has determinant zero and casts to none. -/
theorem cast_parallel_none_witness :
    castDet (Ray.mk (Vec2.mk 0 0) (Vec2.mk 1 0))
        (Boundry.mk (Vec2.mk 0 1) (Vec2.mk 1 1)) = 0 ∧
    (Ray.mk (Vec2.mk 0 0) (Vec2.mk 1 0)).cast
        (Boundry.mk (Vec2.mk 0 1) (Vec2.mk 1 1)) = none :=
  ⟨by norm_num [castDet],
   cast_parallel_none (Ray.mk (Vec2.mk 0 0) (Vec2.mk 1 0))
     (Boundry.mk (Vec2.mk 0 1) (Vec2.mk 1 1)) (by norm_num [castDet])⟩

/-- C9: observer at (0,0) with the wall from (10,-10) to (10,10): the ray
with direction (1,0) hits at (10,0); the ray with direction (-1,0) misses
(the wall is behind the origin). -/
theorem cast_axis_scenarios :
    (Ray.mk (Vec2.mk 0 0) (Vec2.mk 1 0)).cast
        (Boundry.mk (Vec2.mk 10 (-10)) (Vec2.mk 10 10)) = some (Vec2.mk 10 0) ∧
    (Ray.mk (Vec2.mk 0 0) (Vec2.mk (-1) 0)).cast
        (Boundry.mk (Vec2.mk 10 (-10)) (Vec2.mk 10 10)) = none := by
  constructor
  · norm_num [Ray.cast, castDet, castT, castU]
  · norm_num [Ray.cast, castDet, castT, castU]

/-- C2: at a non-degenerate pair (d different from 0), Ray.cast returns a
point iff 0 < t <= 1 and u > 0, that point is a + t*(b-a), a crossing
exactly at the endpoint b (t = 1, wall in front) yields that endpoint, and
a crossing exactly at the endpoint a (t = 0) yields none. -/
theorem cast_accepts_iff_params (r : Ray) (b : Boundry)
    (hd : castDet r b ≠ 0) : castSpecAt r b := by
  unfold castSpecAt Ray.cast
  rw [if_neg hd]
  refine ⟨?_, ?_, ?_, ?_⟩
  · split_ifs with hc <;> simp [hc]
  · intro p hp
    split_ifs at hp with hc
    exact (Option.some.inj hp).symm
  · intro ht hu
    have hc : 0 < castT r b ∧ castT r b ≤ 1 ∧ 0 < castU r b :=
      ⟨by rw [ht]; exact one_pos, le_of_eq ht, hu⟩
    rw [if_pos hc]
    have hx : b.a.x + castT r b * (b.b.x - b.a.x) = b.b.x := by
      rw [ht]; ring
    have hy : b.a.y + castT r b * (b.b.y - b.a.y) = b.b.y := by
      rw [ht]; ring
    rw [hx, hy]
  · intro ht
    rw [if_neg]
    rintro ⟨h0, -, -⟩
    rw [ht] at h0
    exact lt_irrefl 0 h0

/-- Witness for cast_accepts_iff_params: the axis ray against the vertical
wall of C9 has determinant -20. -/
theorem cast_accepts_iff_params_witness :
    castDet (Ray.mk (Vec2.mk 0 0) (Vec2.mk 1 0))
        (Boundry.mk (Vec2.mk 10 (-10)) (Vec2.mk 10 10)) ≠ 0 ∧
    castSpecAt (Ray.mk (Vec2.mk 0 0) (Vec2.mk 1 0))
        (Boundry.mk (Vec2.mk 10 (-10)) (Vec2.mk 10 10)) :=
  ⟨by norm_num [castDet],
   cast_accepts_iff_params (Ray.mk (Vec2.mk 0 0) (Vec2.mk 1 0))
     (Boundry.mk (Vec2.mk 10 (-10)) (Vec2.mk 10 10)) (by norm_num [castDet])⟩

/-- C4: every point returned by Ray.cast lies on the wall segment: it
equals a + t*(b-a) for some t with 0 < t <= 1. -/
theorem cast_point_on_segment (r : Ray) (b : Boundry) (p : Vec2)
    (h : r.cast b = some p) :
    ∃ t : ℚ, 0 < t ∧ t ≤ 1 ∧
      p = Vec2.mk (b.a.x + t * (b.b.x - b.a.x))
          (b.a.y + t * (b.b.y - b.a.y)) := by
  unfold Ray.cast at h
  split_ifs at h with hd hc
  exact ⟨castT r b, hc.1, hc.2.1, (Option.some.inj h).symm⟩

/-- Witness for cast_point_on_segment: the C9 axis hit (10,0) lies on the
wall from (10,-10) to (10,10). -/
theorem cast_point_on_segment_witness :
    (Ray.mk (Vec2.mk 0 0) (Vec2.mk 1 0)).cast
        (Boundry.mk (Vec2.mk 10 (-10)) (Vec2.mk 10 10)) = some (Vec2.mk 10 0) ∧
    ∃ t : ℚ, 0 < t ∧ t ≤ 1 ∧
      Vec2.mk 10 0
        = Vec2.mk
            ((Boundry.mk (Vec2.mk 10 (-10)) (Vec2.mk 10 10)).a.x
              + t * ((Boundry.mk (Vec2.mk 10 (-10)) (Vec2.mk 10 10)).b.x
                - (Boundry.mk (Vec2.mk 10 (-10)) (Vec2.mk 10 10)).a.x))
            ((Boundry.mk (Vec2.mk 10 (-10)) (Vec2.mk 10 10)).a.y
              + t * ((Boundry.mk (Vec2.mk 10 (-10)) (Vec2.mk 10 10)).b.y
                - (Boundry.mk (Vec2.mk 10 (-10)) (Vec2.mk 10 10)).a.y)) := by
  have hcast : (Ray.mk (Vec2.mk 0 0) (Vec2.mk 1 0)).cast
      (Boundry.mk (Vec2.mk 10 (-10)) (Vec2.mk 10 10)) = some (Vec2.mk 10 0) := by
    norm_num [Ray.cast, castDet, castT, castU]
  exact ⟨hcast,
    cast_point_on_segment (Ray.mk (Vec2.mk 0 0) (Vec2.mk 1 0))
      (Boundry.mk (Vec2.mk 10 (-10)) (Vec2.mk 10 10)) (Vec2.mk 10 0) hcast⟩

/-- Squared distances are nonnegative. -/
theorem dist2_nonneg (p q : Vec2) : 0 ≤ dist2 p q := by
  unfold dist2
  positivity

/-- Strict comparison of Euclidean distances reflects to squared
distances: sqrt is strictly monotone on nonnegatives. -/
theorem sqrt_dist2_lt (p q1 q2 : Vec2)
    (h : Real.sqrt (dist2 p q1 : ℝ) < Real.sqrt (dist2 p q2 : ℝ)) :
    dist2 p q1 < dist2 p q2 := by
  by_contra hle
  push_neg at hle
  have hmono : Real.sqrt (dist2 p q2 : ℝ) ≤ Real.sqrt (dist2 p q1 : ℝ) :=
    Real.sqrt_le_sqrt (by exact_mod_cast hle)
  linarith

/-- Equality of Euclidean distances reflects to squared distances. -/
theorem sqrt_dist2_eq (p q1 q2 : Vec2)
    (h : Real.sqrt (dist2 p q1 : ℝ) = Real.sqrt (dist2 p q2 : ℝ)) :
    dist2 p q1 = dist2 p q2 := by
  have e1 : Real.sqrt (dist2 p q1 : ℝ) ^ 2 = (dist2 p q1 : ℝ) :=
    Real.sq_sqrt (by exact_mod_cast dist2_nonneg p q1)
  have e2 : Real.sqrt (dist2 p q2 : ℝ) ^ 2 = (dist2 p q2 : ℝ) :=
    Real.sq_sqrt (by exact_mod_cast dist2_nonneg p q2)
  have : (dist2 p q1 : ℝ) = (dist2 p q2 : ℝ) := by
    rw [← e1, ← e2, h]
  exact_mod_cast this

/-- C5: when one ray hits two walls at strictly different Euclidean
distances from the observer, Particle.look records the hit of the strictly
nearer wall, whichever order the two walls appear in. -/
theorem look_selects_nearer (pos : Vec2) (r : Ray) (ls : List Vec2)
    (w1 w2 : Boundry) (p1 p2 : Vec2)
    (h1 : r.cast w1 = some p1) (h2 : r.cast w2 = some p2)
    (hlt : Real.sqrt (dist2 pos p1 : ℝ) < Real.sqrt (dist2 pos p2 : ℝ)) :
    ((Particle.mk pos [r] ls).look [w1, w2]).ray_lines = [p1] ∧
    ((Particle.mk pos [r] ls).look [w2, w1]).ray_lines = [p1] := by
  have hq : dist2 pos p1 < dist2 pos p2 := sqrt_dist2_lt pos p1 p2 hlt
  refine ⟨?_, ?_⟩ <;>
    simp [Particle.look, lookLines, closestHit, castLoop, h1, h2, hq, hq.not_lt]

/-- Witness for look_selects_nearer: the axis ray through walls at x = 5
and x = 7 keeps the hit (5,0) in both wall orders. -/
theorem look_selects_nearer_witness :
    ((Ray.mk (Vec2.mk 0 0) (Vec2.mk 1 0)).cast
        (Boundry.mk (Vec2.mk 5 (-1)) (Vec2.mk 5 1)) = some (Vec2.mk 5 0) ∧
     (Ray.mk (Vec2.mk 0 0) (Vec2.mk 1 0)).cast
        (Boundry.mk (Vec2.mk 7 (-1)) (Vec2.mk 7 1)) = some (Vec2.mk 7 0) ∧
     Real.sqrt (dist2 (Vec2.mk 0 0) (Vec2.mk 5 0) : ℝ)
       < Real.sqrt (dist2 (Vec2.mk 0 0) (Vec2.mk 7 0) : ℝ)) ∧
    ((Particle.mk (Vec2.mk 0 0) [Ray.mk (Vec2.mk 0 0) (Vec2.mk 1 0)] []).look
        [Boundry.mk (Vec2.mk 5 (-1)) (Vec2.mk 5 1),
         Boundry.mk (Vec2.mk 7 (-1)) (Vec2.mk 7 1)]).ray_lines = [Vec2.mk 5 0] ∧
    ((Particle.mk (Vec2.mk 0 0) [Ray.mk (Vec2.mk 0 0) (Vec2.mk 1 0)] []).look
        [Boundry.mk (Vec2.mk 7 (-1)) (Vec2.mk 7 1),
         Boundry.mk (Vec2.mk 5 (-1)) (Vec2.mk 5 1)]).ray_lines = [Vec2.mk 5 0] := by
  have h1 : (Ray.mk (Vec2.mk 0 0) (Vec2.mk 1 0)).cast
      (Boundry.mk (Vec2.mk 5 (-1)) (Vec2.mk 5 1)) = some (Vec2.mk 5 0) := by
    norm_num [Ray.cast, castDet, castT, castU]
  have h2 : (Ray.mk (Vec2.mk 0 0) (Vec2.mk 1 0)).cast
      (Boundry.mk (Vec2.mk 7 (-1)) (Vec2.mk 7 1)) = some (Vec2.mk 7 0) := by
    norm_num [Ray.cast, castDet, castT, castU]
  have hlt : Real.sqrt (dist2 (Vec2.mk 0 0) (Vec2.mk 5 0) : ℝ)
      < Real.sqrt (dist2 (Vec2.mk 0 0) (Vec2.mk 7 0) : ℝ) := by
    have e5 : (dist2 (Vec2.mk 0 0) (Vec2.mk 5 0) : ℚ) = 25 := by norm_num [dist2]
    have e7 : (dist2 (Vec2.mk 0 0) (Vec2.mk 7 0) : ℚ) = 49 := by norm_num [dist2]
    rw [e5, e7]
    push_cast
    exact Real.sqrt_lt_sqrt (by norm_num) (by norm_num)
  have hmain := look_selects_nearer (Vec2.mk 0 0)
    (Ray.mk (Vec2.mk 0 0) (Vec2.mk 1 0)) []
    (Boundry.mk (Vec2.mk 5 (-1)) (Vec2.mk 5 1))
    (Boundry.mk (Vec2.mk 7 (-1)) (Vec2.mk 7 1))
    (Vec2.mk 5 0) (Vec2.mk 7 0) h1 h2 hlt
  exact ⟨⟨h1, h2, hlt⟩, hmain.1, hmain.2⟩

/-- C6: when one ray hits two walls at exactly equal Euclidean distance
from the observer, Particle.look keeps the hit of whichever wall appears
first in the wall sequence. -/
theorem look_tie_keeps_first (pos : Vec2) (r : Ray) (ls : List Vec2)
    (w1 w2 : Boundry) (p1 p2 : Vec2)
    (h1 : r.cast w1 = some p1) (h2 : r.cast w2 = some p2)
    (heq : Real.sqrt (dist2 pos p1 : ℝ) = Real.sqrt (dist2 pos p2 : ℝ)) :
    ((Particle.mk pos [r] ls).look [w1, w2]).ray_lines = [p1] ∧
    ((Particle.mk pos [r] ls).look [w2, w1]).ray_lines = [p2] := by
  have hq : dist2 pos p1 = dist2 pos p2 := sqrt_dist2_eq pos p1 p2 heq
  have hn1 : ¬ dist2 pos p2 < dist2 pos p1 := by
    rw [hq]; exact lt_irrefl _
  have hn2 : ¬ dist2 pos p1 < dist2 pos p2 := by
    rw [hq]; exact lt_irrefl _
  refine ⟨?_, ?_⟩ <;>
    simp [Particle.look, lookLines, closestHit, castLoop, h1, h2, hn1, hn2]

/-- Witness for look_tie_keeps_first: two vertical walls through (5,0) are
hit at the same point, hence at equal distance; the first wall of the
sequence wins in both orders. -/
theorem look_tie_keeps_first_witness :
    ((Ray.mk (Vec2.mk 0 0) (Vec2.mk 1 0)).cast
        (Boundry.mk (Vec2.mk 5 (-1)) (Vec2.mk 5 1)) = some (Vec2.mk 5 0) ∧
     (Ray.mk (Vec2.mk 0 0) (Vec2.mk 1 0)).cast
        (Boundry.mk (Vec2.mk 5 (-2)) (Vec2.mk 5 2)) = some (Vec2.mk 5 0) ∧
     Real.sqrt (dist2 (Vec2.mk 0 0) (Vec2.mk 5 0) : ℝ)
       = Real.sqrt (dist2 (Vec2.mk 0 0) (Vec2.mk 5 0) : ℝ)) ∧
    ((Particle.mk (Vec2.mk 0 0) [Ray.mk (Vec2.mk 0 0) (Vec2.mk 1 0)] []).look
        [Boundry.mk (Vec2.mk 5 (-1)) (Vec2.mk 5 1),
         Boundry.mk (Vec2.mk 5 (-2)) (Vec2.mk 5 2)]).ray_lines = [Vec2.mk 5 0] ∧
    ((Particle.mk (Vec2.mk 0 0) [Ray.mk (Vec2.mk 0 0) (Vec2.mk 1 0)] []).look
        [Boundry.mk (Vec2.mk 5 (-2)) (Vec2.mk 5 2),
         Boundry.mk (Vec2.mk 5 (-1)) (Vec2.mk 5 1)]).ray_lines = [Vec2.mk 5 0] := by
  have h1 : (Ray.mk (Vec2.mk 0 0) (Vec2.mk 1 0)).cast
      (Boundry.mk (Vec2.mk 5 (-1)) (Vec2.mk 5 1)) = some (Vec2.mk 5 0) := by
    norm_num [Ray.cast, castDet, castT, castU]
  have h2 : (Ray.mk (Vec2.mk 0 0) (Vec2.mk 1 0)).cast
      (Boundry.mk (Vec2.mk 5 (-2)) (Vec2.mk 5 2)) = some (Vec2.mk 5 0) := by
    norm_num [Ray.cast, castDet, castT, castU]
  have hmain := look_tie_keeps_first (Vec2.mk 0 0)
    (Ray.mk (Vec2.mk 0 0) (Vec2.mk 1 0)) []
    (Boundry.mk (Vec2.mk 5 (-1)) (Vec2.mk 5 1))
    (Boundry.mk (Vec2.mk 5 (-2)) (Vec2.mk 5 2))
    (Vec2.mk 5 0) (Vec2.mk 5 0) h1 h2 rfl
  exact ⟨⟨h1, h2, rfl⟩, hmain.1, hmain.2⟩

/-- The hit list produced by the ray loop keeps, in fan order, exactly the
closest hits of the rays that have one. -/
theorem lookLines_eq_filterMap (pos : Vec2) (rays : List Ray)
    (bs : List Boundry) :
    lookLines pos rays bs = rays.filterMap (fun r => closestHit pos r bs) := by
  induction rays with
  | nil => rfl
  | cons r rest ih =>
    unfold lookLines
    cases h : closestHit pos r bs <;> simp [List.filterMap_cons, h, ih]

/-- Counterexample to C1: a particle with one ray and an empty wall list:
after Particle.look, ray_lines is empty (the source appends nothing for a
ray without a hit) while the fan has one ray, so the lengths differ. -/
theorem look_drops_missed_rays_cex :
    ¬ (((Particle.mk (Vec2.mk 0 0) [Ray.mk (Vec2.mk 0 0) (Vec2.mk 1 0)] []).look
          []).ray_lines.length
        = (Particle.mk (Vec2.mk 0 0)
            [Ray.mk (Vec2.mk 0 0) (Vec2.mk 1 0)] []).rays.length) := by
  simp [Particle.look, lookLines, closestHit, castLoop]

/-- C1 amended: after Particle.look, ray_lines holds, in fan order,
exactly the closest hit points of the rays that strike some wall; a ray
that strikes nothing contributes no entry (no None placeholder), so the
stored sequence is at most as long as the fan and can be strictly
shorter. -/
theorem look_ray_lines_amended (par : Particle) (bs : List Boundry) :
    (par.look bs).ray_lines
        = par.rays.filterMap (fun r => closestHit par.pos r bs) ∧
    (par.look bs).ray_lines.length ≤ par.rays.length := by
  refine ⟨lookLines_eq_filterMap par.pos par.rays bs, ?_⟩
  have h := lookLines_eq_filterMap par.pos par.rays bs
  show (lookLines par.pos par.rays bs).length ≤ par.rays.length
  rw [h]
  exact List.length_filterMap_le _ _

/-- C8: Particle.move_to sets the observer position, repositions every
ray of the fan to the new position, leaves every ray's direction unchanged
(the fan is not re-aimed) and does not touch ray_lines; Ray.move_to itself
sets pos and keeps dir. -/
theorem move_to_repositions_rays (par : Particle) (p : Vec2) :
    (par.move_to p).pos = p ∧
    (∀ r ∈ (par.move_to p).rays, r.pos = p) ∧
    (par.move_to p).rays.map Ray.dir = par.rays.map Ray.dir ∧
    (par.move_to p).ray_lines = par.ray_lines ∧
    (∀ (r : Ray) (q : Vec2), (r.move_to q).pos = q ∧ (r.move_to q).dir = r.dir) := by
  refine ⟨rfl, ?_, ?_, rfl, fun r q => ⟨rfl, rfl⟩⟩
  · intro r hr
    simp [Particle.move_to] at hr
    obtain ⟨s, hs, rfl⟩ := hr
    rfl
  · simp [Particle.move_to, List.map_map]
    exact fun a _ => rfl

/-- C10: recomputation is read-only on its geometric inputs: Particle.look
changes neither the observer position nor the ray fan (each ray keeps its
origin and direction); it only rewrites ray_lines.  Ray.cast and the wall
list are embedded as pure values, matching the source, which only reads
them. -/
theorem look_preserves_inputs (par : Particle) (bs : List Boundry) :
    (par.look bs).pos = par.pos ∧ (par.look bs).rays = par.rays :=
  ⟨rfl, rfl⟩

/-- C7: for an angular step deg with 0 < deg <= 360, Particle.init builds
exactly ceil(360/deg) rays, at the angles 0, deg, 2*deg, ..., all strictly
below 360, in strictly increasing order, every one with origin equal to
the initial observer position. -/
theorem particle_init_fan (deg : ℚ) (h0 : 0 < deg) (h360 : deg ≤ 360) :
    fanSpec deg := by
  unfold fanSpec particleInitRays arange
  refine ⟨?_, ?_, ?_, ?_, ?_⟩
  · rw [List.length_map, List.length_map, List.length_range, sub_zero]
  · rw [sub_zero, List.map_map, List.map_map]
    congr 1
    funext i
    show (0 : ℚ) + (i : ℚ) * deg = (i : ℚ) * deg
    rw [zero_add]
  · rw [sub_zero]
    intro p hp
    rw [List.map_map] at hp
    obtain ⟨i, hi, rfl⟩ := List.mem_map.mp hp
    rw [List.mem_range] at hi
    have hilt : (i : ℚ) < 360 / deg := Nat.lt_ceil.mp hi
    show 0 + (i : ℚ) * deg < 360
    rw [zero_add]
    exact (lt_div_iff₀ h0).mp hilt
  · rw [sub_zero, List.map_map, List.map_map, List.pairwise_map]
    refine List.Pairwise.imp ?_ (List.pairwise_lt_range _)
    intro i j hij
    show 0 + (i : ℚ) * deg < 0 + (j : ℚ) * deg
    rw [zero_add, zero_add]
    have hij' : (i : ℚ) < (j : ℚ) := by exact_mod_cast hij
    exact mul_lt_mul_of_pos_right hij' h0
  · intro p hp
    rw [List.map_map] at hp
    obtain ⟨i, -, rfl⟩ := List.mem_map.mp hp
    rfl

/-- Witness for particle_init_fan: the step 90 satisfies the bounds and
yields the four-ray fan properties. -/
theorem particle_init_fan_witness :
    (0 < (90 : ℚ) ∧ (90 : ℚ) ≤ 360) ∧ fanSpec 90 :=
  ⟨⟨by norm_num, by norm_num⟩, particle_init_fan 90 (by norm_num) (by norm_num)⟩
